import Mathlib

/- Shallow embedding of src/database.py: an in-memory key-value store with
   nested transactions.  A `Frame` is one transaction layer (Python class
   `Frame`: `data` dict, `numbers` dict, `deleted` set); a context is the
   stack of frames, modelled here as a `List Frame` listed TOP-FIRST (the
   Python list stores the base at index 0 and the top at the end; Python
   iterates `reversed(self.frames)`, which is exactly head-to-tail order of
   our list).  Python dicts are modelled as association lists with unique
   keys; since dict iteration order in the source language is unspecified,
   the concrete order kept by `mapInsert` is one faithful refinement. -/

namespace DB

/-- Association-list lookup, mirroring Python `d[k]` / `k in d`. -/
def mapFind {α : Type} (m : List (String × α)) (k : String) : Option α :=
  match m with
  | [] => none
  | p :: rest => if p.1 = k then some p.2 else mapFind rest k

/-- Association-list store `d[k] = v`: the new binding replaces any old one. -/
def mapInsert {α : Type} (m : List (String × α)) (k : String) (v : α) :
    List (String × α) :=
  (k, v) :: m.filter (fun p => p.1 ≠ k)

/-- Association-list delete `del d[k]`. -/
def mapErase {α : Type} (m : List (String × α)) (k : String) :
    List (String × α) :=
  m.filter (fun p => p.1 ≠ k)

/-- Python `self.numbers.get(value, 0)`. -/
def getNum (m : List (String × Int)) (v : String) : Int := (mapFind m v).getD 0

/-- One transaction layer: Python class `Frame` (src/database.py:31-37). -/
structure Frame where
  data : List (String × String)
  numbers : List (String × Int)
  deleted : List String
deriving DecidableEq

/-- A freshly constructed `Frame(context)`. -/
def Frame.empty : Frame := ⟨[], [], []⟩

/-- Source `Frame.increase` (src/database.py:40-41); the `var_name` argument is unused
in the source, so it is dropped here. -/
def Frame.increase (f : Frame) (value : String) : Frame :=
  { f with numbers := mapInsert f.numbers value (getNum f.numbers value + 1) }

/-- The scan loop of `Context.get` (src/database.py:108-124), frames top-first:
first frame marking the key deleted yields the string "NULL"; first frame
assigning it yields its value; a fully exhausted scan yields `none` (Python
`None`, printed as NULL). -/
def ctxGetLoop : List Frame → String → Option String
  | [], _ => none
  | f :: rest, k =>
    if k ∈ f.deleted then some "NULL"
    else
      match mapFind f.data k with
      | some v => some v
      | none => ctxGetLoop rest k

/-- Source `Frame.decrease` (src/database.py:47-58).  `stackView` is the full frames
list (top-first) seen by `self.context.get(var_name, False)` at the moment of
the call: during ordinary operations it is the whole stack with `f` on top;
during commit it is the partially popped stack with `f` as the base. -/
def Frame.decrease (f : Frame) (stackView : List Frame) (k : String) : Frame :=
  match mapFind f.data k with
  | some value =>
      { f with numbers := mapInsert f.numbers value (getNum f.numbers value - 1) }
  | none =>
      match ctxGetLoop stackView k with
      | some value =>
          { f with numbers := mapInsert f.numbers value (getNum f.numbers value - 1) }
      | none => f

/-- Source `Frame.set` (src/database.py:60-65): decrease, increase, clear the deletion
mark, record the assignment. -/
def Frame.set (f : Frame) (stackView : List Frame) (k v : String) : Frame :=
  let f1 := f.decrease stackView k
  let f2 := f1.increase v
  { f2 with deleted := f2.deleted.filter (fun x => x ≠ k),
            data := mapInsert f2.data k v }

/-- Source `Frame.unset` (src/database.py:74-79): decrease, add the deletion mark,
drop the assignment if present. -/
def Frame.unset (f : Frame) (stackView : List Frame) (k : String) : Frame :=
  let f1 := f.decrease stackView k
  { f1 with deleted := if k ∈ f1.deleted then f1.deleted else k :: f1.deleted,
            data := mapErase f1.data k }

/-- Source `Frame.numequalto` (src/database.py:87-88). -/
def Frame.numequalto (f : Frame) (v : String) : Int := getNum f.numbers v

/-- Source `Context.set` (src/database.py:101-103): delegate to the top frame; the
frame's `decrease` sees the whole stack. -/
def Context.set (frames : List Frame) (k v : String) : List Frame :=
  match frames with
  | [] => []
  | top :: rest => top.set (top :: rest) k v :: rest

/-- Source `Context.unset` (src/database.py:105-106). -/
def Context.unset (frames : List Frame) (k : String) : List Frame :=
  match frames with
  | [] => []
  | top :: rest => top.unset (top :: rest) k :: rest

/-- The line printed by `Context.get` (src/database.py:121-122): the resolved
value, or "NULL" when the scan produced `None`. -/
def Context.getOut (frames : List Frame) (k : String) : String :=
  (ctxGetLoop frames k).getD "NULL"

/-- Source `Context.numequalto` (src/database.py:126-132): sum of every frame's
per-value delta. -/
def Context.numequalto (frames : List Frame) (v : String) : Int :=
  (frames.map (fun f => f.numequalto v)).sum

/-- Source `Context.begin` (src/database.py:134-135): push a fresh frame. -/
def Context.begin (frames : List Frame) : List Frame := Frame.empty :: frames

/-- Source `Context.rollback` (src/database.py:137-141): with only the base frame the
state is untouched and "INVALID ROLLBACK" is printed; otherwise the top frame
is popped.  The second component is the printed line, if any. -/
def Context.rollback (frames : List Frame) : List Frame × Option String :=
  if frames.length = 1 then (frames, some "INVALID ROLLBACK")
  else (frames.tail, none)

/-- Inner loop of `Context.commit` over `frame.get_all_deleted()`
(src/database.py:160-164): unseen deleted keys are unset on the base frame,
whose `decrease` sees the current stack `uppers ++ [base]`. -/
def foldDel (uppers : List Frame) :
    Frame → List String → List String → Frame × List String
  | base, seen, [] => (base, seen)
  | base, seen, k :: ks =>
    if k ∈ seen then foldDel uppers base seen ks
    else foldDel uppers (base.unset (uppers ++ [base]) k) (k :: seen) ks

/-- Inner loop of `Context.commit` over `frame.keys()` (src/database.py:166-171):
unseen assigned keys are set on the base frame with the value the folded frame
assigns them. -/
def foldSet (uppers : List Frame) :
    Frame → List String → List (String × String) → Frame × List String
  | base, seen, [] => (base, seen)
  | base, seen, p :: ps =>
    if p.1 ∈ seen then foldSet uppers base seen ps
    else foldSet uppers (base.set (uppers ++ [base]) p.1 p.2) (p.1 :: seen) ps

/-- Outer loop of `Context.commit` (src/database.py:159-173): walk the non-base
frames from the top down; each processed frame is popped, so while frame `f` is
being folded the live stack is `f :: lowers ++ [base]`. -/
def commitGo : List Frame → Frame → List String → Frame
  | [], base, _ => base
  | f :: lowers, base, seen =>
    let p := foldDel (f :: lowers) base seen f.deleted
    let q := foldSet (f :: lowers) p.1 p.2 f.data
    commitGo lowers q.1 q.2

/-- Source `Context.commit` (src/database.py:150-173).  With only the base frame the
state is untouched and the INVALID COMMIT line is printed; otherwise all
non-base frames are folded into the base and popped. -/
def Context.commit (frames : List Frame) : List Frame × Option String :=
  if frames.length = 1 then
    (frames, some "INVALID COMMIT - NO TRANSACTION(S) IN PROGRESS")
  else ([commitGo frames.dropLast (frames.getLastD Frame.empty) []], none)

/-- The engine commands reachable states are built from. -/
inductive Cmd where
  | set : String → String → Cmd
  | unset : String → Cmd
  | get : String → Cmd
  | numequalto : String → Cmd
  | begin : Cmd
  | rollback : Cmd
  | commit : Cmd
deriving DecidableEq

/-- One engine command applied to the stack (reads leave it unchanged). -/
def step (frames : List Frame) : Cmd → List Frame
  | .set k v => Context.set frames k v
  | .unset k => Context.unset frames k
  | .get _ => frames
  | .numequalto _ => frames
  | .begin => Context.begin frames
  | .rollback => (Context.rollback frames).1
  | .commit => (Context.commit frames).1

/-- Source `Context.__init__` (src/database.py:95-96): a single base frame. -/
def initCtx : List Frame := [Frame.empty]

/-- The stack after executing a command sequence from a fresh context. -/
def run (cmds : List Cmd) : List Frame := cmds.foldl step initCtx

/-- States reachable by some command sequence. -/
def Reachable (st : List Frame) : Prop := ∃ cmds, run cmds = st

/-- All keys mentioned anywhere in the stack (for brute-force counting). -/
def stackKeys (frames : List Frame) : List String :=
  (frames.map (fun f => f.data.map Prod.fst ++ f.deleted)).flatten.dedup

/-- Brute-force full-stack count of keys whose effective value is `v`. -/
def bruteCount (frames : List Frame) (v : String) : Nat :=
  (stackKeys frames).countP (fun k => ctxGetLoop frames k == some v)

/-- Specification-side semantics of one set/unset command on a naive map
(used to state last-write-wins, following the spec's words). -/
def specApply (m : String → Option String) : Cmd → String → Option String
  | .set k v => fun x => if x = k then some v else m x
  | .unset k => fun x => if x = k then none else m x
  | _ => m

/-- Specification-side last-write map of a command sequence. -/
def specLastWrite (ops : List Cmd) : String → Option String :=
  ops.foldl specApply (fun _ => none)

/-- The keys a command touches. -/
def cmdKeys : Cmd → List String
  | .set k _ => [k]
  | .unset k => [k]
  | _ => []

/-- All keys touched by a command sequence. -/
def opsKeys (ops : List Cmd) : List String := (ops.map cmdKeys).flatten.dedup

/-- Specification-side exact count of keys currently holding `v`. -/
def specCount (ops : List Cmd) (v : String) : Nat :=
  (opsKeys ops).countP (fun k => specLastWrite ops k == some v)

/-- Commands that are plain single-layer writes. -/
def setUnset : Cmd → Bool
  | .set _ _ => true
  | .unset _ => true
  | _ => false

/-- Commands that neither push nor pop a layer. -/
def readWrite : Cmd → Bool
  | .set _ _ => true
  | .unset _ => true
  | .get _ => true
  | .numequalto _ => true
  | _ => false

/-- How a single frame resolves a key during the `Context.get` scan: "NULL"
when marked deleted, its assigned value when assigned, nothing otherwise
(this is one step of `ctxGetLoop`). -/
def resolveF (f : Frame) (k : String) : Option String :=
  if k ∈ f.deleted then some "NULL" else mapFind f.data k

/-- The amount `decrease` subtracts from the delta of value `u`, as the code
computes it: the layer's own old assignment if present, otherwise the
full-stack resolution (a resolution to a deletion being the string "NULL"). -/
def decContribution (f : Frame) (stackView : List Frame) (k u : String) : Int :=
  match mapFind f.data k with
  | some w => if u = w then 1 else 0
  | none =>
    match ctxGetLoop stackView k with
    | some w => if u = w then 1 else 0
    | none => 0

/-- The contribution of key `k`'s current binding in `m` to the count of
value `u` (1 when bound to `u`, otherwise 0). -/
def oldContribution (m : List (String × String)) (k u : String) : Int :=
  match mapFind m k with
  | some w => if u = w then 1 else 0
  | none => 0

/-- Single-layer refinement relation: the frame's assignments agree with the
abstract last-write map `m`, deleted keys are unbound in `m`, and assigned
keys are unique. -/
def MapInv (f : Frame) (m : String → Option String) : Prop :=
  (∀ k, mapFind f.data k = m k) ∧
  (∀ k, k ∈ f.deleted → m k = none) ∧
  (f.data.map Prod.fst).Nodup

/-- Single-layer count invariant: away from the value "NULL", the layer's
delta of a value is the exact number of keys the layer assigns it. -/
def CntInv (f : Frame) : Prop :=
  ∀ v, v ≠ "NULL" →
    getNum f.numbers v = (f.data.countP (fun p => p.2 == v) : Int)

/-- A layer never both assigns and deletes the same key. -/
def FrameInv (f : Frame) : Prop :=
  ∀ k, k ∈ f.deleted → mapFind f.data k = none

/-- Every layer of the stack satisfies the disjointness invariant. -/
def StackInv (st : List Frame) : Prop := ∀ f ∈ st, FrameInv f

/- ------------------------------------------------------------------ -/
/- Association-list lemmas. -/

theorem mapFind_nil {α : Type} (k : String) :
    mapFind ([] : List (String × α)) k = none := rfl

theorem mapFind_cons {α : Type} (p : String × α) (rest : List (String × α))
    (k : String) :
    mapFind (p :: rest) k = if p.1 = k then some p.2 else mapFind rest k := rfl

theorem filter_ne_cons {α : Type} (p : String × α) (rest : List (String × α))
    (k : String) :
    (p :: rest).filter (fun q => q.1 ≠ k) =
      if p.1 = k then rest.filter (fun q => q.1 ≠ k)
      else p :: rest.filter (fun q => q.1 ≠ k) := by
  rw [List.filter_cons]
  by_cases hp : p.1 = k <;> simp [hp]

theorem mapFind_filter_ne {α : Type} (m : List (String × α)) (k k' : String)
    (h : k ≠ k') :
    mapFind (m.filter (fun p => p.1 ≠ k)) k' = mapFind m k' := by
  induction m with
  | nil => rfl
  | cons p rest ih =>
    rw [filter_ne_cons]
    by_cases hp : p.1 = k
    · have h2 : ¬p.1 = k' := fun hh => h (hp ▸ hh)
      rw [if_pos hp, ih, mapFind_cons, if_neg h2]
    · rw [if_neg hp, mapFind_cons, mapFind_cons, ih]

theorem mapFind_filter_self {α : Type} (m : List (String × α)) (k : String) :
    mapFind (m.filter (fun p => p.1 ≠ k)) k = none := by
  induction m with
  | nil => rfl
  | cons p rest ih =>
    rw [filter_ne_cons]
    by_cases hp : p.1 = k
    · rw [if_pos hp, ih]
    · rw [if_neg hp, mapFind_cons, if_neg hp, ih]

theorem mapFind_insert {α : Type} (m : List (String × α)) (k k' : String)
    (v : α) :
    mapFind (mapInsert m k v) k' = if k = k' then some v else mapFind m k' := by
  unfold mapInsert
  rw [mapFind_cons]
  by_cases h : k = k'
  · rw [if_pos h, if_pos h]
  · rw [if_neg h, if_neg h, mapFind_filter_ne m k k' h]

theorem mapFind_erase {α : Type} (m : List (String × α)) (k k' : String) :
    mapFind (mapErase m k) k' = if k = k' then none else mapFind m k' := by
  unfold mapErase
  by_cases h : k = k'
  · rw [if_pos h, h, mapFind_filter_self]
  · rw [if_neg h, mapFind_filter_ne m k k' h]

theorem getNum_insert (m : List (String × Int)) (w u : String) (x : Int) :
    getNum (mapInsert m w x) u = if w = u then x else getNum m u := by
  unfold getNum
  rw [mapFind_insert]
  by_cases h : w = u <;> simp [h]

/- ------------------------------------------------------------------ -/
/- Effect of the frame operations on each field. -/

theorem decrease_data (f : Frame) (sv : List Frame) (k : String) :
    (f.decrease sv k).data = f.data := by
  unfold Frame.decrease
  cases mapFind f.data k with
  | some v => rfl
  | none =>
    cases ctxGetLoop sv k with
    | some v => rfl
    | none => rfl

theorem decrease_deleted (f : Frame) (sv : List Frame) (k : String) :
    (f.decrease sv k).deleted = f.deleted := by
  unfold Frame.decrease
  cases mapFind f.data k with
  | some v => rfl
  | none =>
    cases ctxGetLoop sv k with
    | some v => rfl
    | none => rfl

theorem set_data (f : Frame) (sv : List Frame) (k v : String) :
    (f.set sv k v).data = mapInsert f.data k v := by
  unfold Frame.set Frame.increase
  simp [decrease_data]

theorem set_deleted (f : Frame) (sv : List Frame) (k v : String) :
    (f.set sv k v).deleted = f.deleted.filter (fun x => x ≠ k) := by
  unfold Frame.set Frame.increase
  simp [decrease_deleted]

theorem unset_data (f : Frame) (sv : List Frame) (k : String) :
    (f.unset sv k).data = mapErase f.data k := by
  unfold Frame.unset
  simp [decrease_data]

theorem unset_deleted (f : Frame) (sv : List Frame) (k : String) :
    (f.unset sv k).deleted =
      if k ∈ f.deleted then f.deleted else k :: f.deleted := by
  unfold Frame.unset
  simp [decrease_deleted]

/- ------------------------------------------------------------------ -/
/- The get scan. -/

theorem ctxGetLoop_cons_eq (f : Frame) (rest : List Frame) (k : String) :
    ctxGetLoop (f :: rest) k =
      if k ∈ f.deleted then some "NULL"
      else
        match mapFind f.data k with
        | some v => some v
        | none => ctxGetLoop rest k := rfl

theorem ctxGetLoop_cons (f : Frame) (rest : List Frame) (k : String) :
    ctxGetLoop (f :: rest) k = (resolveF f k).or (ctxGetLoop rest k) := by
  rw [ctxGetLoop_cons_eq]
  unfold resolveF
  by_cases h : k ∈ f.deleted
  · rw [if_pos h, if_pos h]
    rfl
  · rw [if_neg h, if_neg h]
    cases mapFind f.data k with
    | some v => rfl
    | none => rfl

theorem ctxGetLoop_single (f : Frame) (k : String) :
    ctxGetLoop [f] k = resolveF f k := by
  rw [ctxGetLoop_cons]
  cases resolveF f k <;> rfl

theorem ctxGetLoop_append (xs ys : List Frame) (k : String) :
    ctxGetLoop (xs ++ ys) k = (ctxGetLoop xs k).or (ctxGetLoop ys k) := by
  induction xs with
  | nil => rfl
  | cons f rest ih =>
    rw [List.cons_append, ctxGetLoop_cons, ctxGetLoop_cons, ih, Option.or_assoc]

theorem resolveF_set_self (f : Frame) (sv : List Frame) (k v : String) :
    resolveF (f.set sv k v) k = some v := by
  unfold resolveF
  rw [set_data, set_deleted, mapFind_insert]
  simp [List.mem_filter]

theorem mem_filter_ne (l : List String) (k k' : String) (h : k ≠ k') :
    k' ∈ l.filter (fun x => x ≠ k) ↔ k' ∈ l := by
  constructor
  · intro hm
    exact (List.mem_filter.mp hm).1
  · intro hm
    exact List.mem_filter.mpr ⟨hm, decide_eq_true (Ne.symm h)⟩

theorem resolveF_set_ne (f : Frame) (sv : List Frame) (k v k' : String)
    (h : k ≠ k') :
    resolveF (f.set sv k v) k' = resolveF f k' := by
  unfold resolveF
  rw [set_data, set_deleted, mapFind_insert, if_neg h]
  simp only [mem_filter_ne f.deleted k k' h]

theorem resolveF_unset_self (f : Frame) (sv : List Frame) (k : String) :
    resolveF (f.unset sv k) k = some "NULL" := by
  unfold resolveF
  rw [unset_deleted]
  by_cases h : k ∈ f.deleted <;> simp [h]

theorem resolveF_unset_ne (f : Frame) (sv : List Frame) (k k' : String)
    (h : k ≠ k') :
    resolveF (f.unset sv k) k' = resolveF f k' := by
  unfold resolveF
  rw [unset_data, unset_deleted, mapFind_erase, if_neg h]
  by_cases hd : k ∈ f.deleted
  · simp [hd]
  · simp [hd, List.mem_cons, Ne.symm h]

/- ------------------------------------------------------------------ -/
/- Effect of the frame operations on the value deltas. -/

theorem decrease_numbers (f : Frame) (sv : List Frame) (k u : String) :
    getNum (f.decrease sv k).numbers u =
      getNum f.numbers u - decContribution f sv k u := by
  unfold Frame.decrease decContribution
  cases mapFind f.data k with
  | some w =>
    simp only []
    rw [getNum_insert]
    by_cases h : w = u
    · subst h
      simp
    · rw [if_neg h, if_neg (fun hh : u = w => h hh.symm)]
      omega
  | none =>
    cases ctxGetLoop sv k with
    | some w =>
      simp only []
      rw [getNum_insert]
      by_cases h : w = u
      · subst h
        simp
      · rw [if_neg h, if_neg (fun hh : u = w => h hh.symm)]
        omega
    | none => simp

theorem set_numbers (f : Frame) (sv : List Frame) (k v u : String) :
    getNum (f.set sv k v).numbers u =
      getNum f.numbers u - decContribution f sv k u +
        (if u = v then 1 else 0) := by
  show getNum (mapInsert (f.decrease sv k).numbers v
      (getNum (f.decrease sv k).numbers v + 1)) u = _
  rw [getNum_insert]
  by_cases h : v = u
  · subst h
    rw [if_pos rfl, if_pos rfl, decrease_numbers]
  · rw [if_neg h, if_neg (fun hh : u = v => h hh.symm), decrease_numbers]
    omega

theorem unset_numbers (f : Frame) (sv : List Frame) (k u : String) :
    getNum (f.unset sv k).numbers u =
      getNum f.numbers u - decContribution f sv k u := by
  show getNum (f.decrease sv k).numbers u = _
  exact decrease_numbers f sv k u

/- ------------------------------------------------------------------ -/
/- The commit fold. -/

theorem mapFind_eq_none_iff {α : Type} (m : List (String × α)) (k : String) :
    mapFind m k = none ↔ k ∉ m.map Prod.fst := by
  induction m with
  | nil => simp [mapFind_nil]
  | cons p rest ih =>
    rw [mapFind_cons]
    by_cases hp : p.1 = k
    · simp [hp]
    · have hk : ¬k = p.1 := fun hh => hp hh.symm
      rw [if_neg hp, ih]
      simp [List.mem_cons, not_or, hk]

theorem foldDel_nil (uppers : List Frame) (base : Frame) (seen : List String) :
    foldDel uppers base seen [] = (base, seen) := rfl

theorem foldDel_cons (uppers : List Frame) (base : Frame) (seen : List String)
    (k : String) (ks : List String) :
    foldDel uppers base seen (k :: ks) =
      if k ∈ seen then foldDel uppers base seen ks
      else foldDel uppers (base.unset (uppers ++ [base]) k) (k :: seen) ks := rfl

theorem foldSet_nil (uppers : List Frame) (base : Frame) (seen : List String) :
    foldSet uppers base seen [] = (base, seen) := rfl

theorem foldSet_cons (uppers : List Frame) (base : Frame) (seen : List String)
    (p : String × String) (ps : List (String × String)) :
    foldSet uppers base seen (p :: ps) =
      if p.1 ∈ seen then foldSet uppers base seen ps
      else foldSet uppers (base.set (uppers ++ [base]) p.1 p.2)
        (p.1 :: seen) ps := rfl

theorem commitGo_nil (base : Frame) (seen : List String) :
    commitGo [] base seen = base := rfl

theorem commitGo_cons (f : Frame) (lowers : List Frame) (base : Frame)
    (seen : List String) :
    commitGo (f :: lowers) base seen =
      commitGo lowers
        (foldSet (f :: lowers) (foldDel (f :: lowers) base seen f.deleted).1
          (foldDel (f :: lowers) base seen f.deleted).2 f.data).1
        (foldSet (f :: lowers) (foldDel (f :: lowers) base seen f.deleted).1
          (foldDel (f :: lowers) base seen f.deleted).2 f.data).2 := rfl

theorem foldDel_seen (uppers : List Frame) (ks : List String) :
    ∀ (base : Frame) (seen : List String) (k : String),
      (k ∈ (foldDel uppers base seen ks).2 ↔ k ∈ seen ∨ k ∈ ks) := by
  induction ks with
  | nil =>
    intro base seen k
    rw [foldDel_nil]
    simp
  | cons k0 ks ih =>
    intro base seen k
    rw [foldDel_cons]
    by_cases h0 : k0 ∈ seen
    · rw [if_pos h0, ih]
      simp only [List.mem_cons]
      constructor
      · rintro (h | h)
        · exact Or.inl h
        · exact Or.inr (Or.inr h)
      · rintro (h | rfl | h)
        · exact Or.inl h
        · exact Or.inl h0
        · exact Or.inr h
    · rw [if_neg h0, ih]
      simp only [List.mem_cons]
      tauto

theorem foldSet_seen (uppers : List Frame) (ps : List (String × String)) :
    ∀ (base : Frame) (seen : List String) (k : String),
      (k ∈ (foldSet uppers base seen ps).2 ↔
        k ∈ seen ∨ k ∈ ps.map Prod.fst) := by
  induction ps with
  | nil =>
    intro base seen k
    rw [foldSet_nil]
    simp
  | cons p ps ih =>
    intro base seen k
    rw [foldSet_cons]
    by_cases h0 : p.1 ∈ seen
    · rw [if_pos h0, ih]
      simp only [List.map_cons, List.mem_cons]
      constructor
      · rintro (h | h)
        · exact Or.inl h
        · exact Or.inr (Or.inr h)
      · rintro (h | rfl | h)
        · exact Or.inl h
        · exact Or.inl h0
        · exact Or.inr h
    · rw [if_neg h0, ih]
      simp only [List.map_cons, List.mem_cons]
      tauto

theorem foldDel_resolve (uppers : List Frame) (ks : List String) :
    ∀ (base : Frame) (seen : List String) (k : String),
      resolveF (foldDel uppers base seen ks).1 k =
        if k ∈ ks ∧ k ∉ seen then some "NULL" else resolveF base k := by
  induction ks with
  | nil =>
    intro base seen k
    rw [foldDel_nil]
    simp
  | cons k0 ks ih =>
    intro base seen k
    rw [foldDel_cons]
    by_cases h0 : k0 ∈ seen
    · rw [if_pos h0, ih]
      by_cases hk : k = k0
      · subst hk
        simp [h0]
      · simp [List.mem_cons, hk]
    · rw [if_neg h0, ih]
      by_cases hk : k = k0
      · subst hk
        have h1 : k ∈ k :: seen := List.mem_cons_self k seen
        simp [h0, h1, resolveF_unset_self]
      · have h2 : (k ∈ k0 :: seen) ↔ k ∈ seen := by
          simp [List.mem_cons, hk]
        rw [resolveF_unset_ne base (uppers ++ [base]) k0 k (Ne.symm hk)]
        simp only [List.mem_cons, hk, false_or, h2]

theorem foldSet_resolve (uppers : List Frame) (ps : List (String × String)) :
    ∀ (base : Frame) (seen : List String) (k : String),
      resolveF (foldSet uppers base seen ps).1 k =
        if k ∈ seen then resolveF base k
        else (mapFind ps k).or (resolveF base k) := by
  induction ps with
  | nil =>
    intro base seen k
    rw [foldSet_nil]
    by_cases h : k ∈ seen
    · simp [h]
    · simp [h, mapFind_nil]
  | cons p ps ih =>
    intro base seen k
    rw [foldSet_cons]
    by_cases h0 : p.1 ∈ seen
    · rw [if_pos h0, ih]
      by_cases hs : k ∈ seen
      · simp [hs]
      · have hk : ¬p.1 = k := fun hh => hs (hh ▸ h0)
        rw [if_neg hs, if_neg hs, mapFind_cons, if_neg hk]
    · rw [if_neg h0, ih]
      by_cases hk : p.1 = k
      · subst hk
        have h1 : p.1 ∈ p.1 :: seen := List.mem_cons_self p.1 seen
        simp [h0, h1, resolveF_set_self, mapFind_cons]
      · have hk' : ¬k = p.1 := fun hh => hk hh.symm
        have h2 : (k ∈ p.1 :: seen) ↔ k ∈ seen := by
          simp [List.mem_cons, hk']
        rw [resolveF_set_ne base (uppers ++ [base]) p.1 p.2 k hk]
        rw [mapFind_cons, if_neg hk]
        simp only [h2]

theorem commitGo_resolve (fs : List Frame) :
    ∀ (base : Frame) (seen : List String) (k : String),
      resolveF (commitGo fs base seen) k =
        if k ∈ seen then resolveF base k
        else (ctxGetLoop fs k).or (resolveF base k) := by
  induction fs with
  | nil =>
    intro base seen k
    rw [commitGo_nil]
    by_cases h : k ∈ seen <;> simp [h, ctxGetLoop]
  | cons f lowers ih =>
    intro base seen k
    rw [commitGo_cons, ih, ctxGetLoop_cons]
    simp only [foldSet_resolve, foldSet_seen, foldDel_resolve, foldDel_seen]
    by_cases hs : k ∈ seen
    · simp [hs]
    · by_cases hd : k ∈ f.deleted
      · have hres : resolveF f k = some "NULL" := by simp [resolveF, hd]
        simp [hs, hd, hres]
      · cases hm : mapFind f.data k with
        | some v =>
          have hmem : k ∈ f.data.map Prod.fst := by
            by_contra hc
            rw [(mapFind_eq_none_iff f.data k).mpr hc] at hm
            exact Option.noConfusion hm
          have hres : resolveF f k = some v := by simp [resolveF, hd, hm]
          simp [hs, hd, hmem, hres, hm]
        | none =>
          have hmem : k ∉ f.data.map Prod.fst :=
            (mapFind_eq_none_iff f.data k).mp hm
          have hres : resolveF f k = none := by simp [resolveF, hd, hm]
          simp [hs, hd, hmem, hres, hm, Option.or_assoc]

theorem dropLast_append_getLastD (l : List Frame) (h : l ≠ []) :
    l.dropLast ++ [l.getLastD Frame.empty] = l := by
  induction l with
  | nil => exact absurd rfl h
  | cons f rest ih =>
    cases rest with
    | nil => rfl
    | cons g rest2 =>
      have ih2 := ih (List.cons_ne_nil g rest2)
      show f :: ((g :: rest2).dropLast ++ [(g :: rest2).getLastD Frame.empty]) =
        f :: g :: rest2
      rw [ih2]

/-- Skipping frames that neither delete nor assign the key. -/
theorem ctxGetLoop_skip (pre rest : List Frame) (k : String)
    (h : ∀ g ∈ pre, k ∉ g.deleted ∧ mapFind g.data k = none) :
    ctxGetLoop (pre ++ rest) k = ctxGetLoop rest k := by
  induction pre with
  | nil => rfl
  | cons g pre ih =>
    rw [List.cons_append, ctxGetLoop_cons]
    have hg := h g (List.mem_cons_self g pre)
    have hres : resolveF g k = none := by
      unfold resolveF
      rw [if_neg hg.1, hg.2]
    rw [hres, Option.none_or]
    exact ih (fun g' hg' => h g' (List.mem_cons_of_mem g hg'))

/-- A read/write command only rewrites the top frame. -/
theorem step_readWrite_tail (c : Cmd) (hc : readWrite c = true) (f : Frame)
    (rest : List Frame) : ∃ f', step (f :: rest) c = f' :: rest := by
  cases c with
  | set k v => exact ⟨_, rfl⟩
  | unset k => exact ⟨_, rfl⟩
  | get k => exact ⟨f, rfl⟩
  | numequalto v => exact ⟨f, rfl⟩
  | begin => exact absurd hc (by simp [readWrite])
  | rollback => exact absurd hc (by simp [readWrite])
  | commit => exact absurd hc (by simp [readWrite])

theorem foldl_readWrite_tail (ops : List Cmd) :
    ∀ (f : Frame) (rest : List Frame), (∀ c ∈ ops, readWrite c = true) →
      ∃ f', List.foldl step (f :: rest) ops = f' :: rest := by
  induction ops with
  | nil => exact fun f rest _ => ⟨f, rfl⟩
  | cons c ops ih =>
    intro f rest hall
    obtain ⟨f1, h1⟩ :=
      step_readWrite_tail c (hall c (List.mem_cons_self c ops)) f rest
    obtain ⟨f2, h2⟩ := ih f1 rest (fun c' hc' => hall c' (List.mem_cons_of_mem c hc'))
    exact ⟨f2, by rw [List.foldl_cons, h1, h2]⟩

theorem step_ne_nil (st : List Frame) (h : st ≠ []) (c : Cmd) :
    step st c ≠ [] := by
  cases st with
  | nil => exact absurd rfl h
  | cons f rest =>
    cases c with
    | set k v => exact List.cons_ne_nil _ _
    | unset k => exact List.cons_ne_nil _ _
    | get k => exact List.cons_ne_nil _ _
    | numequalto v => exact List.cons_ne_nil _ _
    | begin => exact List.cons_ne_nil _ _
    | rollback =>
      show (Context.rollback (f :: rest)).1 ≠ []
      unfold Context.rollback
      by_cases h1 : (f :: rest).length = 1
      · rw [if_pos h1]
        exact List.cons_ne_nil _ _
      · rw [if_neg h1]
        show rest ≠ []
        intro hh
        rw [hh] at h1
        exact h1 rfl
    | commit =>
      show (Context.commit (f :: rest)).1 ≠ []
      unfold Context.commit
      by_cases h1 : (f :: rest).length = 1
      · rw [if_pos h1]
        exact List.cons_ne_nil _ _
      · rw [if_neg h1]
        exact List.cons_ne_nil _ _

theorem run_ne_nil (cmds : List Cmd) : run cmds ≠ [] := by
  suffices hgen : ∀ (cs : List Cmd) (st : List Frame), st ≠ [] →
      List.foldl step st cs ≠ [] by
    exact hgen cmds initCtx (List.cons_ne_nil _ _)
  intro cs
  induction cs with
  | nil => exact fun st h => h
  | cons c cs ih =>
    intro st h
    rw [List.foldl_cons]
    exact ih (step st c) (step_ne_nil st h c)

theorem reachable_ne_nil (st : List Frame) (h : Reachable st) : st ≠ [] := by
  obtain ⟨cmds, hc⟩ := h
  rw [← hc]
  exact run_ne_nil cmds

/- ------------------------------------------------------------------ -/
/- The disjointness invariant. -/

theorem frameInv_empty : FrameInv Frame.empty := by
  intro k h
  exact absurd h (List.not_mem_nil k)

theorem frameInv_set (f : Frame) (sv : List Frame) (k v : String)
    (h : FrameInv f) : FrameInv (f.set sv k v) := by
  intro k' hk'
  rw [set_data, mapFind_insert]
  rw [set_deleted] at hk'
  have h1 := List.mem_filter.mp hk'
  have h2 : k' ≠ k := by simpa using h1.2
  rw [if_neg (fun hh : k = k' => h2 hh.symm)]
  exact h k' h1.1

theorem frameInv_unset (f : Frame) (sv : List Frame) (k : String)
    (h : FrameInv f) : FrameInv (f.unset sv k) := by
  intro k' hk'
  rw [unset_data, mapFind_erase]
  by_cases hkk : k = k'
  · rw [if_pos hkk]
  · rw [if_neg hkk]
    rw [unset_deleted] at hk'
    have hmem : k' ∈ f.deleted := by
      by_cases hd : k ∈ f.deleted
      · rw [if_pos hd] at hk'
        exact hk'
      · rw [if_neg hd] at hk'
        rcases List.mem_cons.mp hk' with rfl | hh
        · exact absurd rfl hkk
        · exact hh
    exact h k' hmem

theorem frameInv_foldDel (uppers : List Frame) (ks : List String) :
    ∀ (base : Frame) (seen : List String), FrameInv base →
      FrameInv (foldDel uppers base seen ks).1 := by
  induction ks with
  | nil =>
    intro base seen h
    rw [foldDel_nil]
    exact h
  | cons k0 ks ih =>
    intro base seen h
    rw [foldDel_cons]
    by_cases h0 : k0 ∈ seen
    · rw [if_pos h0]
      exact ih base seen h
    · rw [if_neg h0]
      exact ih _ _ (frameInv_unset base _ k0 h)

theorem frameInv_foldSet (uppers : List Frame) (ps : List (String × String)) :
    ∀ (base : Frame) (seen : List String), FrameInv base →
      FrameInv (foldSet uppers base seen ps).1 := by
  induction ps with
  | nil =>
    intro base seen h
    rw [foldSet_nil]
    exact h
  | cons p ps ih =>
    intro base seen h
    rw [foldSet_cons]
    by_cases h0 : p.1 ∈ seen
    · rw [if_pos h0]
      exact ih base seen h
    · rw [if_neg h0]
      exact ih _ _ (frameInv_set base _ p.1 p.2 h)

theorem frameInv_commitGo (fs : List Frame) :
    ∀ (base : Frame) (seen : List String), FrameInv base →
      FrameInv (commitGo fs base seen) := by
  induction fs with
  | nil =>
    intro base seen h
    rw [commitGo_nil]
    exact h
  | cons f lowers ih =>
    intro base seen h
    rw [commitGo_cons]
    exact ih _ _ (frameInv_foldSet _ _ _ _ (frameInv_foldDel _ _ _ _ h))

theorem getLastD_mem (l : List Frame) (h : l ≠ []) :
    l.getLastD Frame.empty ∈ l := by
  induction l with
  | nil => exact absurd rfl h
  | cons f rest ih =>
    cases rest with
    | nil => exact List.mem_cons_self f []
    | cons g rest2 =>
      show (g :: rest2).getLastD Frame.empty ∈ f :: g :: rest2
      exact List.mem_cons_of_mem f (ih (List.cons_ne_nil g rest2))

theorem stackInv_step (st : List Frame) (c : Cmd) (h : StackInv st) :
    StackInv (step st c) := by
  cases c with
  | set k v =>
    cases st with
    | nil => exact h
    | cons top rest =>
      intro f hf
      rcases List.mem_cons.mp hf with rfl | hh
      · exact frameInv_set top _ k v (h top (List.mem_cons_self top rest))
      · exact h f (List.mem_cons_of_mem top hh)
  | unset k =>
    cases st with
    | nil => exact h
    | cons top rest =>
      intro f hf
      rcases List.mem_cons.mp hf with rfl | hh
      · exact frameInv_unset top _ k (h top (List.mem_cons_self top rest))
      · exact h f (List.mem_cons_of_mem top hh)
  | get k => exact h
  | numequalto v => exact h
  | begin =>
    intro f hf
    rcases List.mem_cons.mp hf with rfl | hh
    · exact frameInv_empty
    · exact h f hh
  | rollback =>
    show StackInv (Context.rollback st).1
    unfold Context.rollback
    by_cases h1 : st.length = 1
    · rw [if_pos h1]
      exact h
    · rw [if_neg h1]
      intro f hf
      exact h f (List.mem_of_mem_tail hf)
  | commit =>
    show StackInv (Context.commit st).1
    unfold Context.commit
    by_cases h1 : st.length = 1
    · rw [if_pos h1]
      exact h
    · rw [if_neg h1]
      have hbase : FrameInv (st.getLastD Frame.empty) := by
        cases st with
        | nil => exact frameInv_empty
        | cons g r =>
          exact h _ (getLastD_mem (g :: r) (List.cons_ne_nil g r))
      intro f hf
      rcases List.mem_cons.mp hf with rfl | hh
      · exact frameInv_commitGo st.dropLast _ [] hbase
      · exact absurd hh (List.not_mem_nil f)

theorem stackInv_run (cmds : List Cmd) : StackInv (run cmds) := by
  suffices hgen : ∀ (cs : List Cmd) (st : List Frame), StackInv st →
      StackInv (List.foldl step st cs) by
    refine hgen cmds initCtx ?_
    intro f hf
    rcases List.mem_cons.mp hf with rfl | hh
    · exact frameInv_empty
    · exact absurd hh (List.not_mem_nil f)
  intro cs
  induction cs with
  | nil => exact fun st h => h
  | cons c cs ih =>
    intro st h
    rw [List.foldl_cons]
    exact ih (step st c) (stackInv_step st c h)

/- ------------------------------------------------------------------ -/
/- Single-layer refinement (for claim C3). -/

theorem mapErase_of_not_mem (m : List (String × String)) (k : String)
    (h : k ∉ m.map Prod.fst) : mapErase m k = m := by
  unfold mapErase
  apply List.filter_eq_self.mpr
  intro q hq
  have hne : q.1 ≠ k := fun hh => h (hh ▸ List.mem_map_of_mem Prod.fst hq)
  exact decide_eq_true hne

theorem countP_mapErase (m : List (String × String)) (k v : String)
    (h : (m.map Prod.fst).Nodup) :
    ((mapErase m k).countP (fun p => p.2 == v) : Int) =
      (m.countP (fun p => p.2 == v) : Int) - oldContribution m k v := by
  induction m with
  | nil => simp [mapErase, oldContribution, mapFind_nil]
  | cons p rest ih =>
    rw [List.map_cons, List.nodup_cons] at h
    obtain ⟨hp, hrest⟩ := h
    unfold mapErase at ih ⊢
    rw [filter_ne_cons]
    by_cases hpk : p.1 = k
    · rw [if_pos hpk]
      have hknotin : k ∉ rest.map Prod.fst := hpk ▸ hp
      have herase : rest.filter (fun q => q.1 ≠ k) = rest := by
        have := mapErase_of_not_mem rest k hknotin
        unfold mapErase at this
        exact this
      rw [herase]
      unfold oldContribution
      rw [mapFind_cons, if_pos hpk, List.countP_cons]
      simp only []
      by_cases hv : p.2 = v
      · simp [hv]
      · rw [if_neg (fun hh : v = p.2 => hv hh.symm)]
        have hb : (p.2 == v) = false := by simp [beq_iff_eq, hv]
        rw [hb]
        simp
    · rw [if_neg hpk, List.countP_cons, List.countP_cons]
      unfold oldContribution
      rw [mapFind_cons, if_neg hpk]
      have ihr := ih hrest
      unfold oldContribution at ihr
      push_cast at ihr ⊢
      omega

theorem countP_mapInsert (m : List (String × String)) (k w v : String)
    (h : (m.map Prod.fst).Nodup) :
    ((mapInsert m k w).countP (fun p => p.2 == v) : Int) =
      (m.countP (fun p => p.2 == v) : Int) - oldContribution m k v +
        (if w = v then 1 else 0) := by
  unfold mapInsert
  rw [List.countP_cons]
  have herase := countP_mapErase m k v h
  unfold mapErase at herase
  by_cases hv : w = v
  · have hb : ((k, w).2 == v) = true := by simp [hv]
    rw [hb, if_pos rfl, if_pos hv]
    push_cast at herase ⊢
    omega
  · have hb : ((k, w).2 == v) = false := by simp [beq_iff_eq, hv]
    rw [hb, if_neg Bool.false_ne_true, if_neg hv]
    push_cast at herase ⊢
    omega

/-- On a one-frame stack, away from "NULL" the decrement rule charges exactly
the layer's own old binding of the key. -/
theorem decContribution_single (f : Frame) (k v' : String) (hv : v' ≠ "NULL") :
    decContribution f [f] k v' = oldContribution f.data k v' := by
  unfold decContribution oldContribution
  cases hm : mapFind f.data k with
  | some w => rfl
  | none =>
    simp only [ctxGetLoop_single]
    unfold resolveF
    by_cases hd : k ∈ f.deleted
    · simp [hd, hm, hv]
    · simp [hd, hm]

theorem nodup_keys_mapInsert (m : List (String × String)) (k v : String)
    (h : (m.map Prod.fst).Nodup) :
    ((mapInsert m k v).map Prod.fst).Nodup := by
  unfold mapInsert
  rw [List.map_cons, List.nodup_cons]
  constructor
  · intro hk
    rcases List.mem_map.mp hk with ⟨p, hp, hpk⟩
    have hf := List.mem_filter.mp hp
    have hne : p.1 ≠ k := by simpa using hf.2
    exact hne hpk
  · exact List.Nodup.sublist (List.Sublist.map Prod.fst (List.filter_sublist m)) h

theorem nodup_keys_mapErase (m : List (String × String)) (k : String)
    (h : (m.map Prod.fst).Nodup) :
    ((mapErase m k).map Prod.fst).Nodup :=
  List.Nodup.sublist (List.Sublist.map Prod.fst (List.filter_sublist m)) h

/-- One `set` on the single base layer preserves the refinement and count
invariants, updating the abstract map pointwise. -/
theorem c3_step_set (f : Frame) (m : String → Option String) (k v : String)
    (hm : MapInv f m) (hc : CntInv f) :
    MapInv (f.set [f] k v) (fun x => if x = k then some v else m x) ∧
      CntInv (f.set [f] k v) := by
  obtain ⟨hfind, hdel, hnodup⟩ := hm
  refine ⟨⟨?_, ?_, ?_⟩, ?_⟩
  · intro k'
    show mapFind (f.set [f] k v).data k' = if k' = k then some v else m k'
    rw [set_data, mapFind_insert]
    by_cases hk : k = k'
    · rw [if_pos hk, if_pos hk.symm]
    · rw [if_neg hk, if_neg (fun hh : k' = k => hk hh.symm), hfind k']
  · intro k' hk'
    show (if k' = k then some v else m k') = none
    rw [set_deleted] at hk'
    have h1 := List.mem_filter.mp hk'
    have h2 : k' ≠ k := by simpa using h1.2
    rw [if_neg h2]
    exact hdel k' h1.1
  · rw [set_data]
    exact nodup_keys_mapInsert f.data k v hnodup
  · intro v' hv'
    rw [set_numbers, decContribution_single f k v' hv', set_data,
      countP_mapInsert f.data k v v' hnodup, hc v' hv']
    by_cases hev : v' = v
    · rw [if_pos hev, if_pos hev.symm]
    · rw [if_neg hev, if_neg (fun hh : v = v' => hev hh.symm)]

/-- One `unset` on the single base layer preserves the refinement and count
invariants, unbinding the key in the abstract map. -/
theorem c3_step_unset (f : Frame) (m : String → Option String) (k : String)
    (hm : MapInv f m) (hc : CntInv f) :
    MapInv (f.unset [f] k) (fun x => if x = k then none else m x) ∧
      CntInv (f.unset [f] k) := by
  obtain ⟨hfind, hdel, hnodup⟩ := hm
  refine ⟨⟨?_, ?_, ?_⟩, ?_⟩
  · intro k'
    show mapFind (f.unset [f] k).data k' = if k' = k then none else m k'
    rw [unset_data, mapFind_erase]
    by_cases hk : k = k'
    · rw [if_pos hk, if_pos hk.symm]
    · rw [if_neg hk, if_neg (fun hh : k' = k => hk hh.symm), hfind k']
  · intro k' hk'
    show (if k' = k then none else m k') = none
    rw [unset_deleted] at hk'
    by_cases hk : k' = k
    · rw [if_pos hk]
    · rw [if_neg hk]
      have hmem : k' ∈ f.deleted := by
        by_cases hd : k ∈ f.deleted
        · rw [if_pos hd] at hk'
          exact hk'
        · rw [if_neg hd] at hk'
          rcases List.mem_cons.mp hk' with rfl | hh
          · exact absurd rfl hk
          · exact hh
      exact hdel k' hmem
  · rw [unset_data]
    exact nodup_keys_mapErase f.data k hnodup
  · intro v' hv'
    rw [unset_numbers, decContribution_single f k v' hv', unset_data,
      countP_mapErase f.data k v' hnodup, hc v' hv']

/-- Running set/unset commands from a one-frame stack stays a one-frame stack
that refines the abstract fold of the same commands. -/
theorem c3_run_inv (ops : List Cmd) :
    ∀ (f : Frame) (m : String → Option String),
      (∀ c ∈ ops, setUnset c = true) → MapInv f m → CntInv f →
      ∃ f', List.foldl step [f] ops = [f'] ∧
        MapInv f' (List.foldl specApply m ops) ∧ CntInv f' := by
  induction ops with
  | nil => exact fun f m _ h1 h2 => ⟨f, rfl, h1, h2⟩
  | cons c ops ih =>
    intro f m hall h1 h2
    have htail : ∀ c' ∈ ops, setUnset c' = true :=
      fun c' hc' => hall c' (List.mem_cons_of_mem c hc')
    cases c with
    | set k v =>
      obtain ⟨hs, hc'⟩ := c3_step_set f m k v h1 h2
      obtain ⟨f', h3, h4, h5⟩ := ih (f.set [f] k v) _ htail hs hc'
      exact ⟨f', h3, h4, h5⟩
    | unset k =>
      obtain ⟨hs, hc'⟩ := c3_step_unset f m k h1 h2
      obtain ⟨f', h3, h4, h5⟩ := ih (f.unset [f] k) _ htail hs hc'
      exact ⟨f', h3, h4, h5⟩
    | get k => exact absurd (hall _ (List.mem_cons_self _ _)) (by simp [setUnset])
    | numequalto v =>
      exact absurd (hall _ (List.mem_cons_self _ _)) (by simp [setUnset])
    | begin => exact absurd (hall _ (List.mem_cons_self _ _)) (by simp [setUnset])
    | rollback =>
      exact absurd (hall _ (List.mem_cons_self _ _)) (by simp [setUnset])
    | commit => exact absurd (hall _ (List.mem_cons_self _ _)) (by simp [setUnset])

theorem specApply_not_mem (c : Cmd) (m : String → Option String) (k : String)
    (h : k ∉ cmdKeys c) : specApply m c k = m k := by
  cases c with
  | set k' v =>
    have : ¬k = k' := fun hh => h (by simp [cmdKeys, hh])
    simp [specApply, this]
  | unset k' =>
    have : ¬k = k' := fun hh => h (by simp [cmdKeys, hh])
    simp [specApply, this]
  | get k' => rfl
  | numequalto v => rfl
  | begin => rfl
  | rollback => rfl
  | commit => rfl

theorem specFold_not_mem (ops : List Cmd) :
    ∀ (m : String → Option String) (k : String),
      k ∉ (ops.map cmdKeys).flatten → List.foldl specApply m ops k = m k := by
  induction ops with
  | nil => exact fun m k _ => rfl
  | cons c ops ih =>
    intro m k h
    rw [List.map_cons, List.flatten_cons, List.mem_append] at h
    push_neg at h
    rw [List.foldl_cons, ih (specApply m c) k h.2]
    exact specApply_not_mem c m k h.1

theorem specLastWrite_support (ops : List Cmd) (k : String)
    (h : specLastWrite ops k ≠ none) : k ∈ opsKeys ops := by
  by_contra hc
  apply h
  have hc' : k ∉ (ops.map cmdKeys).flatten := by
    intro hh
    exact hc (List.mem_dedup.mpr hh)
  exact specFold_not_mem ops (fun _ => none) k hc'

theorem mapFind_of_mem_nodup (m : List (String × String))
    (h : (m.map Prod.fst).Nodup) (p : String × String) (hp : p ∈ m) :
    mapFind m p.1 = some p.2 := by
  induction m with
  | nil => exact absurd hp (List.not_mem_nil p)
  | cons q rest ih =>
    rw [List.map_cons, List.nodup_cons] at h
    rcases List.mem_cons.mp hp with rfl | hh
    · rw [mapFind_cons, if_pos rfl]
    · rw [mapFind_cons]
      by_cases hq : q.1 = p.1
      · exact absurd (hq ▸ List.mem_map_of_mem Prod.fst hh) h.1
      · rw [if_neg hq]
        exact ih h.2 hh

/-- The layer's per-value key count equals the specification-side count over
the keys the command sequence mentions. -/
theorem count_bridge (f : Frame) (ops : List Cmd)
    (h1 : ∀ k, mapFind f.data k = specLastWrite ops k)
    (h2 : (f.data.map Prod.fst).Nodup) (v : String) :
    f.data.countP (fun p => p.2 == v) = specCount ops v := by
  have step1 : f.data.countP (fun p => p.2 == v) =
      (f.data.map Prod.fst).countP
        (fun k => specLastWrite ops k == some v) := by
    rw [List.countP_map]
    apply List.countP_congr
    intro p hp
    have hfind := mapFind_of_mem_nodup f.data h2 p hp
    have hlw : specLastWrite ops p.1 = some p.2 := by
      rw [← h1 p.1]
      exact hfind
    show (p.2 == v) = true ↔ (specLastWrite ops p.1 == some v) = true
    rw [hlw]
    simp [beq_iff_eq]
  rw [step1]
  unfold specCount
  set P : String → Bool := fun k => specLastWrite ops k == some v with hP
  set A : List String := f.data.map Prod.fst with hA
  set B : List String := opsKeys ops with hB
  have hAnodup : A.Nodup := h2
  have hBnodup : B.Nodup := List.nodup_dedup _
  have hmemb : ∀ x, P x = true → (x ∈ A ↔ x ∈ B) := by
    intro x hx
    have hlw : specLastWrite ops x = some v := by
      have := of_decide_eq_true (by simpa [hP, beq_iff_eq] using hx)
      exact this
    constructor
    · intro _
      exact specLastWrite_support ops x (by rw [hlw]; exact Option.some_ne_none v)
    · intro _
      have : mapFind f.data x = some v := by rw [h1 x, hlw]
      by_contra hxa
      rw [(mapFind_eq_none_iff f.data x).mpr (hA ▸ hxa)] at this
      exact Option.noConfusion this
  rw [List.countP_eq_length_filter, List.countP_eq_length_filter]
  have hfA : (A.filter P).Nodup := hAnodup.filter P
  have hfB : (B.filter P).Nodup := hBnodup.filter P
  have hext : ∀ x, x ∈ A.filter P ↔ x ∈ B.filter P := by
    intro x
    rw [List.mem_filter, List.mem_filter]
    constructor
    · rintro ⟨hxA, hxP⟩
      exact ⟨(hmemb x hxP).mp hxA, hxP⟩
    · rintro ⟨hxB, hxP⟩
      exact ⟨(hmemb x hxP).mpr hxB, hxP⟩
  exact ((List.perm_ext_iff_of_nodup hfA hfB).mpr hext).length_eq

/- ------------------------------------------------------------------ -/
/- Claim theorems. -/

/-- Claim C1 (code-bug evidence): after BEGIN; SET a 5; COMMIT, the maintained
sum over all layers of valueDelta for the value "5" is 0, yet `get a` still
answers "5" and a brute-force full-stack scan counts exactly one key with
effective value "5".  The stated invariant is violated in a reachable state. -/
theorem c1_count_invariant_broken_by_commit :
    Context.numequalto (run [.begin, .set "a" "5", .commit]) "5" = 0 ∧
    bruteCount (run [.begin, .set "a" "5", .commit]) "5" = 1 ∧
    Context.getOut (run [.begin, .set "a" "5", .commit]) "a" = "5" := by
  refine ⟨?_, ?_, ?_⟩ <;> decide

/-- Claim C2 (code-bug evidence): with one open transaction holding SET a 5,
`numEqualTo 5` answers 1 immediately before commit but 0 immediately after,
while `get a` answers "5" both times — commit is not observation-preserving. -/
theorem c2_commit_changes_numequalto :
    Context.numequalto (run [.begin, .set "a" "5"]) "5" = 1 ∧
    Context.numequalto (Context.commit (run [.begin, .set "a" "5"])).1 "5" = 0 ∧
    Context.getOut (run [.begin, .set "a" "5"]) "a" = "5" ∧
    Context.getOut (Context.commit (run [.begin, .set "a" "5"])).1 "a" = "5" := by
  refine ⟨?_, ?_, ?_, ?_⟩ <;> decide

/-- Claim C3, counterexample: on the single base layer, the sequence
UNSET a; UNSET a leaves the maintained count for the value "NULL" at -1,
whereas the exact number of keys currently holding "NULL" is 0. -/
theorem c3_counterexample_null_count :
    Context.numequalto (run [.unset "a", .unset "a"]) "NULL" = -1 ∧
    specCount [Cmd.unset "a", Cmd.unset "a"] "NULL" = 0 := by
  refine ⟨?_, ?_⟩ <;> decide

/-- Claim C3 (amended): for every sequence of set/unset commands run with no
transaction open, get answers the most recent operation on the key
(last-write-wins, NULL after an unset or when never written), and for every
value other than the literal string "NULL", numEqualTo answers the exact
number of keys currently holding that value. -/
theorem c3_single_layer_semantics (ops : List Cmd)
    (hall : ∀ c ∈ ops, setUnset c = true) :
    (∀ k, Context.getOut (run ops) k = (specLastWrite ops k).getD "NULL") ∧
    (∀ v, v ≠ "NULL" →
      Context.numequalto (run ops) v = (specCount ops v : Int)) := by
  have hminv : MapInv Frame.empty (fun _ => none) :=
    ⟨fun k => rfl, fun k h => absurd h (List.not_mem_nil k), List.nodup_nil⟩
  have hcinv : CntInv Frame.empty := fun v hv => rfl
  obtain ⟨f', hrun, hm, hc⟩ :=
    c3_run_inv ops Frame.empty (fun _ => none) hall hminv hcinv
  have hrun' : run ops = [f'] := hrun
  have hm' : MapInv f' (specLastWrite ops) := hm
  obtain ⟨hfind, hdel, hnodup⟩ := hm'
  constructor
  · intro k
    rw [hrun']
    unfold Context.getOut
    rw [ctxGetLoop_single]
    unfold resolveF
    by_cases hd : k ∈ f'.deleted
    · rw [if_pos hd, hdel k hd]
      rfl
    · rw [if_neg hd, hfind k]
  · intro v hv
    rw [hrun']
    have hsum : Context.numequalto [f'] v = getNum f'.numbers v := by
      unfold Context.numequalto Frame.numequalto
      simp
    rw [hsum, hc v hv, count_bridge f' ops hfind hnodup v]

/-- Witness for C3: after SET a 1; SET b 1; UNSET a on the base layer, get a
is NULL, get b is 1, and the count of value 1 is exactly 1. -/
theorem c3_witness :
    Context.getOut (run [Cmd.set "a" "1", Cmd.set "b" "1", Cmd.unset "a"])
        "a" = "NULL" ∧
    Context.getOut (run [Cmd.set "a" "1", Cmd.set "b" "1", Cmd.unset "a"])
        "b" = "1" ∧
    Context.numequalto (run [Cmd.set "a" "1", Cmd.set "b" "1", Cmd.unset "a"])
        "1" = 1 := by
  refine ⟨?_, ?_, ?_⟩
  · rw [(c3_single_layer_semantics _ (by decide)).1 "a"]
    rfl
  · rw [(c3_single_layer_semantics _ (by decide)).1 "b"]
    rfl
  · rw [(c3_single_layer_semantics _ (by decide)).2 "1" (by decide)]
    decide

/-- Claim C4, counterexample: in the state after UNSET a; BEGIN the top layer
does not assign "a", and beneath it "a" is only deleted (the base assigns
nothing), so by the claim no valueDelta entry may be decremented by a
subsequent `set a 5` on the top layer; the code nevertheless decrements the
top layer's valueDelta entry for "NULL" from 0 to -1. -/
theorem c4_counterexample_deleted_below :
    mapFind ((run [.unset "a", .begin]).headD Frame.empty).data "a" = none ∧
    ((run [.unset "a", .begin]).getLastD Frame.empty).data = [] ∧
    "a" ∈ ((run [.unset "a", .begin]).getLastD Frame.empty).deleted ∧
    getNum ((run [.unset "a", .begin]).headD Frame.empty).numbers "NULL" = 0 ∧
    getNum ((Context.set (run [.unset "a", .begin]) "a" "5").headD
        Frame.empty).numbers "NULL" = -1 := by
  refine ⟨?_, ?_, ?_, ?_, ?_⟩ <;> decide

/-- Claim C4 (amended): when `set k v` or `unset k` executes on the top layer,
the delta of every value u changes by exactly minus the contribution computed
by the decrement rule as the code implements it — the layer's own old
assignment if `k` is assigned in the layer, otherwise the full-stack
resolution of `k` scanned from the top (so a key that resolves to a deletion
mark, in this layer or below, decrements the entry for the string "NULL"),
and no decrement only when the key resolves nowhere — and `set` additionally
increments the delta of v by exactly 1. -/
theorem c4_decrement_rule_as_implemented (top : Frame) (rest : List Frame)
    (k v u : String) :
    getNum ((Context.set (top :: rest) k v).headD Frame.empty).numbers u =
      getNum top.numbers u - decContribution top (top :: rest) k u +
        (if u = v then 1 else 0) ∧
    getNum ((Context.unset (top :: rest) k).headD Frame.empty).numbers u =
      getNum top.numbers u - decContribution top (top :: rest) k u := by
  constructor
  · show getNum (top.set (top :: rest) k v).numbers u = _
    exact set_numbers top (top :: rest) k v u
  · show getNum (top.unset (top :: rest) k).numbers u = _
    exact unset_numbers top (top :: rest) k u

/-- Claim C8: rollback and commit invoked with only the base layer present
report their INVALID status as a value, leave the stack untouched, and every
subsequent get and numEqualTo observation is unchanged. -/
theorem c8_invalid_rollback_commit_are_no_ops (frames : List Frame)
    (h : frames.length = 1) :
    Context.rollback frames = (frames, some "INVALID ROLLBACK") ∧
    Context.commit frames =
      (frames, some "INVALID COMMIT - NO TRANSACTION(S) IN PROGRESS") ∧
    (∀ k, Context.getOut (Context.rollback frames).1 k =
      Context.getOut frames k) ∧
    (∀ v, Context.numequalto (Context.rollback frames).1 v =
      Context.numequalto frames v) ∧
    (∀ k, Context.getOut (Context.commit frames).1 k =
      Context.getOut frames k) ∧
    (∀ v, Context.numequalto (Context.commit frames).1 v =
      Context.numequalto frames v) := by
  simp [Context.rollback, Context.commit, h]

/-- Claim C5: with at least one open transaction, commit collapses the stack
to a single base frame whose resolution of every key is the most-recent
decision among the non-base layers (the first hit of the top-down scan over
them), falling back to the old base's own resolution when no layer mentions
the key; consequently the get scan after commit agrees with the get scan
immediately before commit on every key. -/
theorem c5_commit_folds_most_recent_decision (frames : List Frame)
    (h : 2 ≤ frames.length) :
    (Context.commit frames).1.length = 1 ∧
    ∀ k,
      ctxGetLoop (Context.commit frames).1 k =
        (ctxGetLoop frames.dropLast k).or
          (resolveF (frames.getLastD Frame.empty) k) ∧
      ctxGetLoop (Context.commit frames).1 k = ctxGetLoop frames k := by
  have hne : frames ≠ [] := by
    intro hh
    rw [hh] at h
    simp at h
  have h1 : ¬frames.length = 1 := by omega
  unfold Context.commit
  rw [if_neg h1]
  refine ⟨rfl, fun k => ?_⟩
  have hres : ctxGetLoop
      [commitGo frames.dropLast (frames.getLastD Frame.empty) []] k =
      (ctxGetLoop frames.dropLast k).or
        (resolveF (frames.getLastD Frame.empty) k) := by
    rw [ctxGetLoop_single, commitGo_resolve]
    simp
  refine ⟨hres, ?_⟩
  rw [hres]
  conv_rhs => rw [← dropLast_append_getLastD frames hne]
  rw [ctxGetLoop_append, ctxGetLoop_single]

/-- Witness for C5: committing the stack of SET a 1; BEGIN; SET a 2 leaves
the get scan for key a unchanged. -/
theorem c5_witness :
    ctxGetLoop
        (Context.commit (run [Cmd.set "a" "1", Cmd.begin, Cmd.set "a" "2"])).1
        "a" =
      ctxGetLoop (run [Cmd.set "a" "1", Cmd.begin, Cmd.set "a" "2"]) "a" ∧
    2 ≤ (run [Cmd.set "a" "1", Cmd.begin, Cmd.set "a" "2"]).length :=
  ⟨((c5_commit_folds_most_recent_decision
      (run [Cmd.set "a" "1", Cmd.begin, Cmd.set "a" "2"]) (by decide)).2
        "a").2,
   by decide⟩

/-- Claim C6: from any reachable state, begin, any sequence of
set/unset/get/numequalto commands, then rollback restores exactly the state
from before the begin, so every get and numEqualTo observation is unchanged. -/
theorem c6_rollback_cancels_transaction (st : List Frame)
    (hreach : Reachable st) (ops : List Cmd)
    (hops : ∀ c ∈ ops, readWrite c = true) :
    (Context.rollback (List.foldl step (Context.begin st) ops)).1 = st ∧
    (∀ k, Context.getOut
        (Context.rollback (List.foldl step (Context.begin st) ops)).1 k =
      Context.getOut st k) ∧
    (∀ v, Context.numequalto
        (Context.rollback (List.foldl step (Context.begin st) ops)).1 v =
      Context.numequalto st v) := by
  have hne : st ≠ [] := reachable_ne_nil st hreach
  obtain ⟨f', hf⟩ := foldl_readWrite_tail ops Frame.empty st hops
  have hmain :
      (Context.rollback (List.foldl step (Context.begin st) ops)).1 = st := by
    rw [show Context.begin st = Frame.empty :: st from rfl, hf]
    unfold Context.rollback
    have hlen : ¬(f' :: st).length = 1 := by
      cases st with
      | nil => exact absurd rfl hne
      | cons g r => simp
    rw [if_neg hlen]
    rfl
  exact ⟨hmain, fun k => by rw [hmain], fun v => by rw [hmain]⟩

/-- Witness for C6: rolling back a transaction that overwrote and deleted key
a restores the state holding a = 1. -/
theorem c6_witness :
    (Context.rollback
        (List.foldl step (Context.begin (run [Cmd.set "a" "1"]))
          [Cmd.set "a" "2", Cmd.unset "a"])).1 =
      run [Cmd.set "a" "1"] :=
  (c6_rollback_cancels_transaction (run [Cmd.set "a" "1"])
    ⟨[Cmd.set "a" "1"], rfl⟩ [Cmd.set "a" "2", Cmd.unset "a"] (by decide)).1

/-- Claim C7: the get scan runs top-down; at the first layer that mentions
the key it answers NULL if that layer marks the key deleted, and the layer's
assigned value otherwise, and it answers NULL when no layer mentions the key
at all. -/
theorem c7_get_scans_top_down (frames : List Frame) (k : String) :
    (∀ pre f rest, frames = pre ++ f :: rest →
      (∀ g ∈ pre, k ∉ g.deleted ∧ mapFind g.data k = none) →
      ((k ∈ f.deleted → Context.getOut frames k = "NULL") ∧
       (∀ v, k ∉ f.deleted → mapFind f.data k = some v →
         Context.getOut frames k = v))) ∧
    ((∀ g ∈ frames, k ∉ g.deleted ∧ mapFind g.data k = none) →
      Context.getOut frames k = "NULL") := by
  constructor
  · intro pre f rest heq hpre
    subst heq
    unfold Context.getOut
    rw [ctxGetLoop_skip pre (f :: rest) k hpre, ctxGetLoop_cons]
    constructor
    · intro hd
      have : resolveF f k = some "NULL" := by
        unfold resolveF
        rw [if_pos hd]
      rw [this]
      rfl
    · intro v hd hm
      have : resolveF f k = some v := by
        unfold resolveF
        rw [if_neg hd, hm]
      rw [this]
      rfl
  · intro hall
    unfold Context.getOut
    rw [← List.append_nil frames, ctxGetLoop_skip frames [] k hall]
    rfl

/-- Witness for C7: a deleted key prints NULL, an assigned key prints its
value, an unmentioned key prints NULL. -/
theorem c7_witness :
    Context.getOut (run [Cmd.set "a" "1"]) "a" = "1" ∧
    Context.getOut (run [Cmd.unset "a"]) "a" = "NULL" ∧
    Context.getOut (run []) "a" = "NULL" :=
  ⟨((c7_get_scans_top_down (run [Cmd.set "a" "1"]) "a").1 []
      ⟨[("a", "1")], [("1", 1)], []⟩ [] (by decide) (by decide)).2 "1"
      (by decide) (by decide),
   ((c7_get_scans_top_down (run [Cmd.unset "a"]) "a").1 []
      ⟨[], [], ["a"]⟩ [] (by decide) (by decide)).1 (by decide),
   (c7_get_scans_top_down (run []) "a").2 (by decide)⟩

/-- Witness for C8 at the freshly initialised context. -/
theorem c8_witness :
    Context.rollback initCtx = (initCtx, some "INVALID ROLLBACK") ∧
    Context.commit initCtx =
      (initCtx, some "INVALID COMMIT - NO TRANSACTION(S) IN PROGRESS") ∧
    Context.getOut (Context.rollback initCtx).1 "a" =
      Context.getOut initCtx "a" :=
  ⟨(c8_invalid_rollback_commit_are_no_ops initCtx (by decide)).1,
   (c8_invalid_rollback_commit_are_no_ops initCtx (by decide)).2.1,
   (c8_invalid_rollback_commit_are_no_ops initCtx (by decide)).2.2.1 "a"⟩

/-- Claim C9: in every reachable state, no layer holds the same key in both
its assigned map and its deleted set; every engine operation, including the
commit fold into the base, preserves this disjointness. -/
theorem c9_assigned_deleted_disjoint (st : List Frame) (h : Reachable st) :
    ∀ f ∈ st, ∀ k, k ∈ f.deleted → mapFind f.data k = none := by
  obtain ⟨cmds, hc⟩ := h
  intro f hf k hk
  rw [← hc] at hf
  exact stackInv_run cmds f hf k hk

/-- Witness for C9: after SET a 1; BEGIN; UNSET a, the top layer deletes key
a and assigns it nothing. -/
theorem c9_witness :
    mapFind ((run [Cmd.set "a" "1", Cmd.begin, Cmd.unset "a"]).headD
      Frame.empty).data "a" = none :=
  c9_assigned_deleted_disjoint (run [Cmd.set "a" "1", Cmd.begin, Cmd.unset "a"])
    ⟨[Cmd.set "a" "1", Cmd.begin, Cmd.unset "a"], rfl⟩
    ((run [Cmd.set "a" "1", Cmd.begin, Cmd.unset "a"]).headD Frame.empty)
    (by decide) "a" (by decide)

/-- Claim C10: at the public interface a deleted key is indistinguishable
from a key bound to the literal string "NULL": the printed get result of a
key whose first resolving layer deletes it equals that of a key whose first
resolving layer assigns it "NULL", and the fallback lookup inside the
decrement rule treats a key resolving to a deletion exactly as if its
effective value were the string "NULL", decrementing that delta entry. -/
theorem c10_deleted_conflated_with_null_string :
    (∀ (pre : List Frame) (f : Frame) (rest : List Frame) (k : String)
       (pre' : List Frame) (f' : Frame) (rest' : List Frame) (j : String),
      (∀ g ∈ pre, k ∉ g.deleted ∧ mapFind g.data k = none) →
      k ∈ f.deleted →
      (∀ g ∈ pre', j ∉ g.deleted ∧ mapFind g.data j = none) →
      j ∉ f'.deleted → mapFind f'.data j = some "NULL" →
      Context.getOut (pre ++ f :: rest) k =
        Context.getOut (pre' ++ f' :: rest') j) ∧
    (∀ (f : Frame) (pre : List Frame) (g : Frame) (rest : List Frame)
       (k : String),
      mapFind f.data k = none →
      (∀ g' ∈ pre, k ∉ g'.deleted ∧ mapFind g'.data k = none) →
      k ∈ g.deleted →
      f.decrease (pre ++ g :: rest) k =
        { f with numbers :=
            mapInsert f.numbers "NULL" (getNum f.numbers "NULL" - 1) }) := by
  constructor
  · intro pre f rest k pre' f' rest' j h1 h2 h3 h4 h5
    unfold Context.getOut
    rw [ctxGetLoop_skip pre _ k h1, ctxGetLoop_skip pre' _ j h3,
      ctxGetLoop_cons, ctxGetLoop_cons]
    have r1 : resolveF f k = some "NULL" := by
      unfold resolveF
      rw [if_pos h2]
    have r2 : resolveF f' j = some "NULL" := by
      unfold resolveF
      rw [if_neg h4, h5]
    rw [r1, r2]
    rfl
  · intro f pre g rest k h1 h2 h3
    have hres : ctxGetLoop (pre ++ g :: rest) k = some "NULL" := by
      rw [ctxGetLoop_skip pre _ k h2, ctxGetLoop_cons]
      have hg : resolveF g k = some "NULL" := by
        unfold resolveF
        rw [if_pos h3]
      rw [hg]
      rfl
    unfold Frame.decrease
    simp only [h1, hres]

/-- Witness for C10: a layer deleting key a prints the same as a layer
binding key b to the string "NULL", and the decrement fallback over a
deleted key subtracts from the "NULL" delta. -/
theorem c10_witness :
    Context.getOut ([] ++ Frame.mk [] [] ["a"] :: []) "a" =
      Context.getOut ([] ++ Frame.mk [("b", "NULL")] [] [] :: []) "b" ∧
    Frame.decrease Frame.empty ([] ++ Frame.mk [] [] ["a"] :: []) "a" =
      { Frame.empty with numbers := (mapInsert Frame.empty.numbers "NULL"
          (getNum Frame.empty.numbers "NULL" - 1)) } :=
  ⟨c10_deleted_conflated_with_null_string.1 [] (Frame.mk [] [] ["a"]) [] "a"
      [] (Frame.mk [("b", "NULL")] [] []) [] "b"
      (by decide) (by decide) (by decide) (by decide) (by decide),
   c10_deleted_conflated_with_null_string.2 Frame.empty []
      (Frame.mk [] [] ["a"]) [] "a" (by decide) (by decide) (by decide)⟩

end DB
